import Mathlib

/-!
Shallow embedding of `desktop_organizer.py` (a single-directory file
organizer) and proofs of the specification claims about it.

The embedding models:
* `FILE_CATEGORIES`, `IGNORED_FILES` — the configuration constants;
* `get_category` — extension → category classification;
* `pathStem` / `pathSuffix` — Python's `pathlib.Path(name).stem` /
  `.suffix` on plain file names (split at the last dot, provided it is
  neither the first nor the last character);
* `get_unique_filename` — collision resolution over a directory modelled
  as the list of names it contains; the source's unbounded `while` loop is
  denoted by `Nat.find` on the least free counter, whose existence is
  proved from injectivity of decimal numerals;
* `organize_desktop` — the traversal over a snapshot of the root's
  entries, with folder creation, moves, per-file failure containment
  (failures injected through a `failSet` of names whose move raises),
  tally accumulation and the summary block.  The filesystem is modelled
  by the root's child list plus per-category folder contents; mutations
  and console output are recorded as explicit traces.

String primitives of the host language (`str.lower`, `str.startswith`,
string ordering) are embedded structurally over the character list of a
`String` so that every definition reduces on concrete inputs.
-/

/-- Python's `str.lower()` (ASCII-faithful): lowercase every character. -/
def pyLower (s : String) : String := ⟨s.data.map Char.toLower⟩

/-- Python's `name.startswith('.')`. -/
def startsWithDot (s : String) : Bool :=
  match s.data with
  | [] => false
  | c :: _ => c = '.'

/-- Python's `<` on strings (lexicographic on code points), as `≤`,
expressed on the character lists so that it evaluates. -/
def strLeB (a b : String) : Bool := decide (¬ b.data < a.data)

/-- Python's `sorted` on a list of strings (ascending, stable). -/
def sortNames (l : List String) : List String :=
  List.insertionSort (fun a b => strLeB a b = true) l

/-- The category table of the source, as an ordered association list
(Python dicts iterate in insertion order). -/
def FILE_CATEGORIES : List (String × List String) :=
  [("Images", [".jpg", ".jpeg", ".png", ".gif", ".bmp", ".svg", ".ico", ".tiff", ".webp", ".heic"]),
   ("PDFs", [".pdf"]),
   ("Documents", [".doc", ".docx", ".txt", ".rtf", ".odt", ".pages", ".tex", ".md", ".csv", ".xlsx", ".xls", ".ppt", ".pptx"]),
   ("Videos", [".mp4", ".avi", ".mov", ".mkv", ".flv", ".wmv", ".webm", ".m4v"]),
   ("Music", [".mp3", ".wav", ".flac", ".aac", ".ogg", ".wma", ".m4a"]),
   ("Archives", [".zip", ".tar", ".gz", ".rar", ".7z", ".bz2", ".xz"]),
   ("Others", [])]

/-- The fixed ignore set of the source. -/
def IGNORED_FILES : List String := [".DS_Store", ".localized", "desktop.ini"]

/-- The seven category labels, in table order. -/
def categoryLabels : List String := FILE_CATEGORIES.map Prod.fst

/-- `get_category`, generalized over the table it scans (the source reads
the global `FILE_CATEGORIES`): lowercase the extension, return the first
category whose list contains it, else the catch-all. -/
def get_category_in (table : List (String × List String)) (file_extension : String) : String :=
  match table.find? (fun p => pyLower file_extension ∈ p.2) with
  | some p => p.1
  | none => "Others"

/-- `get_category` of the source: scan `FILE_CATEGORIES` in order. -/
def get_category (file_extension : String) : String :=
  get_category_in FILE_CATEGORIES file_extension

example : get_category ".JPG" = "Images" := by decide
example : get_category ".jpg" = "Images" := by decide
example : get_category "" = "Others" := by decide
example : get_category ".xyz" = "Others" := by decide

/-- Index of the last occurrence of `c`, Python's `str.rfind` on a hit
(`none` plays the role of `-1`). -/
def lastIdxOf (c : Char) : List Char → Option Nat
  | [] => none
  | a :: rest =>
    match lastIdxOf c rest with
    | some i => some (i + 1)
    | none => if a = c then some 0 else none

/-- `pathlib.Path(name).suffix` for a plain name: the part of the name
from its last dot on, provided that dot is neither first nor last. -/
def pathSuffix (name : String) : String :=
  match lastIdxOf '.' name.data with
  | some i => if 0 < i ∧ i < name.data.length - 1 then ⟨name.data.drop i⟩ else ""
  | none => ""

/-- `pathlib.Path(name).stem` for a plain name: the name up to (not
including) the dot that starts `pathSuffix`, or the whole name. -/
def pathStem (name : String) : String :=
  match lastIdxOf '.' name.data with
  | some i => if 0 < i ∧ i < name.data.length - 1 then ⟨name.data.take i⟩ else name
  | none => name

example : pathSuffix "photo.jpg" = ".jpg" := by decide
example : pathStem "photo.jpg" = "photo" := by decide
example : pathSuffix "README" = "" := by decide
example : pathStem "README" = "README" := by decide
example : pathSuffix ".bashrc" = "" := by decide
example : pathSuffix "archive.tar.gz" = ".gz" := by decide
example : pathStem "archive.tar.gz" = "archive.tar" := by decide

/-! ### Decimal numerals: `Nat.repr` is injective

The source's collision loop generates candidate names `stem(counter)ext`
with a decimal `counter`.  Termination of the loop (and hence its
denotation by `Nat.find`) rests on these candidates being pairwise
distinct, which reduces to injectivity of the decimal numeral. -/

theorem toDigitsCore_acc (b : Nat) : ∀ (f n : Nat) (l : List Char),
    Nat.toDigitsCore b f n l = Nat.toDigitsCore b f n [] ++ l := by
  intro f
  induction f with
  | zero => intro n l; simp [Nat.toDigitsCore]
  | succ f ih =>
    intro n l
    simp only [Nat.toDigitsCore]
    by_cases h : n / b = 0
    · simp [h]
    · simp only [h, if_false]
      rw [ih (n / b) (Nat.digitChar (n % b) :: l), ih (n / b) [Nat.digitChar (n % b)]]
      simp

theorem toDigitsCore_fuel (b : Nat) (hb : 2 ≤ b) : ∀ (n f f' : Nat) (l : List Char),
    n < f → n < f' → Nat.toDigitsCore b f n l = Nat.toDigitsCore b f' n l := by
  intro n
  induction n using Nat.strong_induction_on with
  | _ n ih =>
    intro f f' l hf hf'
    match f, f' with
    | f + 1, f' + 1 =>
      simp only [Nat.toDigitsCore]
      by_cases h : n / b = 0
      · simp [h]
      · simp only [h, if_false]
        have hn : 0 < n := by
          rcases Nat.eq_zero_or_pos n with h0 | h0
          · subst h0; simp at h
          · exact h0
        have hdiv : n / b < n := Nat.div_lt_self hn (by omega)
        exact ih (n / b) hdiv f f' _ (by omega) (by omega)

theorem toDigits_of_lt (b n : Nat) (h : n < b) :
    Nat.toDigits b n = [Nat.digitChar n] := by
  simp [Nat.toDigits, Nat.toDigitsCore, Nat.div_eq_of_lt h, Nat.mod_eq_of_lt h]

theorem toDigits_peel (b n : Nat) (hb : 2 ≤ b) (h : b ≤ n) :
    Nat.toDigits b n = Nat.toDigits b (n / b) ++ [Nat.digitChar (n % b)] := by
  have hb0 : 0 < b := by omega
  have hq : n / b ≠ 0 := by
    have h1 : 1 ≤ n / b := (Nat.one_le_div_iff hb0).mpr h
    omega
  have hn : 0 < n := by omega
  simp only [Nat.toDigits, Nat.toDigitsCore]
  simp only [hq, if_false]
  rw [toDigitsCore_fuel b hb (n / b) n (n / b + 1) _
        (Nat.div_lt_self hn (by omega)) (Nat.lt_succ_self _)]
  exact toDigitsCore_acc b (n / b + 1) (n / b) [Nat.digitChar (n % b)]

/-- Numeric value of a decimal digit character. -/
def digitVal (c : Char) : Nat := c.toNat - 48

/-- Value of a most-significant-first decimal digit string. -/
def digitsVal (l : List Char) : Nat := l.foldl (fun a c => a * 10 + digitVal c) 0

theorem digitVal_digitChar (n : Nat) (h : n < 10) :
    digitVal (Nat.digitChar n) = n := by
  interval_cases n <;> decide

theorem digitsVal_append_single (l : List Char) (c : Char) :
    digitsVal (l ++ [c]) = digitsVal l * 10 + digitVal c := by
  simp [digitsVal, List.foldl_append]

theorem digitsVal_toDigits (n : Nat) : digitsVal (Nat.toDigits 10 n) = n := by
  induction n using Nat.strong_induction_on with
  | _ n ih =>
    by_cases h : n < 10
    · rw [toDigits_of_lt 10 n h]
      have : digitsVal [Nat.digitChar n] = digitVal (Nat.digitChar n) := by
        simp [digitsVal]
      rw [this, digitVal_digitChar n h]
    · push_neg at h
      rw [toDigits_peel 10 n (by omega) h, digitsVal_append_single,
          ih (n / 10) (Nat.div_lt_self (by omega) (by omega)),
          digitVal_digitChar (n % 10) (Nat.mod_lt n (by omega))]
      omega

theorem repr_data (n : Nat) : (Nat.repr n).data = Nat.toDigits 10 n := rfl

theorem repr_data_injective : Function.Injective (fun n => (Nat.repr n).data) := by
  intro a b h
  simp only [repr_data] at h
  have := congrArg digitsVal h
  simpa [digitsVal_toDigits] using this

theorem repr_injective : Function.Injective Nat.repr := by
  intro a b h
  exact repr_data_injective (congrArg String.data h)

/-! ### The name resolver `get_unique_filename` -/

/-- The candidate `f"{name_stem}({counter}){extension}"` of the source's
collision loop. -/
def candidateName (stem ext : String) (counter : Nat) : String :=
  stem ++ "(" ++ Nat.repr counter ++ ")" ++ ext

theorem candidateName_injective (stem ext : String) :
    Function.Injective (candidateName stem ext) := by
  intro a b h
  have hdata := congrArg String.data h
  simp only [candidateName, String.data_append] at hdata
  have h1 := List.append_cancel_right hdata
  have h2 := List.append_cancel_right h1
  have h3 := List.append_cancel_left h2
  exact repr_data_injective h3

theorem exists_fresh_candidate (dir : List String) (stem ext : String) :
    ∃ k : Nat, candidateName stem ext (k + 1) ∉ dir := by
  by_contra hall
  push_neg at hall
  have hinj : Function.Injective (fun i : Fin (dir.length + 1) => candidateName stem ext (i.1 + 1)) := by
    intro i j hij
    have := candidateName_injective stem ext hij
    exact Fin.ext (by omega)
  have hsub : (Finset.univ.image (fun i : Fin (dir.length + 1) => candidateName stem ext (i.1 + 1))) ⊆ dir.toFinset := by
    intro x hx
    simp only [Finset.mem_image] at hx
    obtain ⟨i, _, rfl⟩ := hx
    exact List.mem_toFinset.mpr (hall i.1)
  have hcard := Finset.card_le_card hsub
  rw [Finset.card_image_of_injective _ hinj, Finset.card_univ, Fintype.card_fin] at hcard
  have := List.toFinset_card_le dir
  omega

/-- `get_unique_filename` of the source, with the target directory
modelled by the list of names existing in it.  If the proposed name is
free it is returned unchanged; otherwise the result is the candidate for
the least counter (starting at 1) whose candidate name is free — the
exact value the source's `while` loop returns. -/
def get_unique_filename (dir : List String) (filename : String) : String :=
  if filename ∈ dir then
    candidateName (pathStem filename) (pathSuffix filename)
      (Nat.find (exists_fresh_candidate dir (pathStem filename) (pathSuffix filename)) + 1)
  else filename

example : get_unique_filename [] "photo.jpg" = "photo.jpg" := by decide
example : get_unique_filename ["other.jpg"] "photo.jpg" = "photo.jpg" := by decide

/-! ### The organizer

The filesystem relevant to `organize_desktop` is modelled by the root's
child list (`Entry` = name + regular-file flag, the snapshot taken by
`list(desktop_path.iterdir())`) together with the contents of each
category subfolder.  Console output and filesystem mutations are recorded
as traces.  A `failSet` of names injects per-file move failures
(`shutil.move` raising); the `try` block of the source catches exactly
those.  `mkdir(exist_ok=True)` is modelled as idempotent creation (the
source's uncaught error when a non-directory shadows a category name is
outside the claims). -/

/-- A directory child: its name and whether it is a regular file. -/
structure Entry where
  name : String
  isFile : Bool
deriving DecidableEq

/-- One line of console output. -/
inductive Msg where
  | errRootMissing
  | header
  | moved (src category dest : String)
  | errMoving (src : String)
  | summaryNothing
  | summaryCat (category : String) (count : Nat)
  | summaryTotal (total : Nat)
deriving DecidableEq

/-- One filesystem mutation: creating `root/<folder>`, or moving
`root/<src>` to `root/<folder>/<dest>`. -/
inductive Mutation where
  | mkdir (folder : String)
  | move (src folder dest : String)
deriving DecidableEq

/-- Contents of `root/<name>` (empty if never created/populated). -/
def lookupFolder (fs : List (String × List String)) (name : String) : List String :=
  match fs.find? (fun p => p.1 == name) with
  | some p => p.2
  | none => []

/-- `mkdir(exist_ok=True)`: register the folder if not yet present. -/
def ensureFolder (fs : List (String × List String)) (name : String) :
    List (String × List String) :=
  if (fs.find? (fun p => p.1 == name)).isSome then fs else fs ++ [(name, [])]

/-- A successful move lands `file` in folder `name`. -/
def addToFolder (fs : List (String × List String)) (name file : String) :
    List (String × List String) :=
  fs.map (fun p => if p.1 == name then (p.1, p.2 ++ [file]) else p)

/-- Creating `root/<name>` also adds a (non-file) child to the root. -/
def ensureRootDir (items : List Entry) (name : String) : List Entry :=
  if items.any (fun e => e.name == name) then items else items ++ [⟨name, false⟩]

/-- `move_count[category] += 1` on the `defaultdict(int)`: increment the
entry for `c` in place, appending a fresh entry when absent (dicts keep
insertion order and hold each key once). -/
def bumpTally : List (String × Nat) → String → List (String × Nat)
  | [], c => [(c, 1)]
  | p :: rest, c =>
    if p.1 == c then (p.1, p.2 + 1) :: rest else p :: bumpTally rest c

/-- `move_count[category]` (0 when absent). -/
def tallyCount (t : List (String × Nat)) (c : String) : Nat :=
  match t.find? (fun p => p.1 == c) with
  | some p => p.2
  | none => 0

/-- `sum(move_count.values())`. -/
def totalTally (t : List (String × Nat)) : Nat := (t.map Prod.snd).sum

/-- The summary block of `organize_desktop`: the "nothing moved" notice
when no move succeeded, else one line per tallied category in sorted
order with its count, then the grand total. -/
def summaryMsgs (t : List (String × Nat)) : List Msg :=
  if totalTally t = 0 then [Msg.summaryNothing]
  else (sortNames (t.map Prod.fst)).map (fun c => Msg.summaryCat c (tallyCount t c))
       ++ [Msg.summaryTotal (totalTally t)]

/-- Mutable state threaded through the per-item loop. -/
structure OrgState where
  rootEntries : List Entry
  folders : List (String × List String)
  tally : List (String × Nat)
  msgs : List Msg
  muts : List Mutation
deriving DecidableEq

/-- The body of the `for item in items` loop of `organize_desktop`. -/
def processItem (failSet : List String) (st : OrgState) (e : Entry) : OrgState :=
  if e.isFile = false then st
  else if e.name ∈ IGNORED_FILES then st
  else if startsWithDot e.name = true then st
  else
    let category := get_category (pathSuffix e.name)
    let folders1 := ensureFolder st.folders category
    let roots1 := ensureRootDir st.rootEntries category
    let muts1 := st.muts ++ [Mutation.mkdir category]
    let uniq := get_unique_filename (lookupFolder folders1 category) e.name
    if e.name ∈ failSet then
      { st with folders := folders1, rootEntries := roots1, muts := muts1,
                msgs := st.msgs ++ [Msg.errMoving e.name] }
    else
      { rootEntries := roots1.filter (fun x => x.name != e.name),
        folders := addToFolder folders1 category uniq,
        tally := bumpTally st.tally category,
        msgs := st.msgs ++ [Msg.moved e.name category uniq],
        muts := muts1 ++ [Mutation.move e.name category uniq] }

/-- State of the root directory before a run. -/
structure DirState where
  rootExists : Bool
  rootEntries : List Entry
  folders : List (String × List String)
deriving DecidableEq

/-- Observable outcome of a run. -/
structure RunResult where
  msgs : List Msg
  muts : List Mutation
  tally : List (String × Nat)
  finalRoot : List Entry
  folders : List (String × List String)
deriving DecidableEq

/-- `organize_desktop` of the source: fail fast if the root is missing,
else fold the loop body over the snapshot and emit the summary block. -/
def organize_desktop (failSet : List String) (s : DirState) : RunResult :=
  if s.rootExists = false then
    { msgs := [Msg.errRootMissing], muts := [], tally := [],
      finalRoot := s.rootEntries, folders := s.folders }
  else
    let st0 : OrgState :=
      { rootEntries := s.rootEntries, folders := s.folders,
        tally := [], msgs := [Msg.header], muts := [] }
    let st := s.rootEntries.foldl (processItem failSet) st0
    { msgs := st.msgs ++ summaryMsgs st.tally, muts := st.muts, tally := st.tally,
      finalRoot := st.rootEntries, folders := st.folders }

/-- Exit status of the script: the `__main__` block just calls
`organize_desktop()`; no path calls `sys.exit` and no exception escapes,
so the interpreter always exits with status 0. -/
def main_exit_code (failSet : List String) (s : DirState) : Nat :=
  let _ := organize_desktop failSet s
  0

/-- An entry passes the three skip checks of the loop. -/
def eligibleEntry (e : Entry) : Prop :=
  e.isFile = true ∧ e.name ∉ IGNORED_FILES ∧ startsWithDot e.name = false

instance (e : Entry) : Decidable (eligibleEntry e) := by
  unfold eligibleEntry; infer_instance

/-- An entry that passes the filter and whose move succeeds. -/
def eligibleMove (failSet : List String) (e : Entry) : Prop :=
  eligibleEntry e ∧ e.name ∉ failSet

instance (failSet : List String) (e : Entry) : Decidable (eligibleMove failSet e) := by
  unfold eligibleMove; infer_instance

/-- Category an eligible entry is filed under. -/
def catOf (e : Entry) : String := get_category (pathSuffix e.name)

/-- Destination name chosen for `e` when processed in state `st`. -/
def destOf (st : OrgState) (e : Entry) : String :=
  get_unique_filename (lookupFolder (ensureFolder st.folders (catOf e)) (catOf e)) e.name

/-- Source names of the move mutations of a trace, in order. -/
def moveSrcs (muts : List Mutation) : List String :=
  muts.filterMap (fun m => match m with
    | Mutation.move src _ _ => some src
    | Mutation.mkdir _ => none)

/-- Whether a mutation is a move. -/
def isMoveMut : Mutation → Bool
  | Mutation.move _ _ _ => true
  | Mutation.mkdir _ => false

/-- Whether a console line is a per-file move-error notice. -/
def isErrMsg : Msg → Bool
  | Msg.errMoving _ => true
  | _ => false

/-! ### Classifier claims -/

/-- The configured extension lists are pairwise disjoint: an extension in
two lists forces the two table rows to coincide. -/
theorem categories_disjoint :
    ∀ p ∈ FILE_CATEGORIES, ∀ q ∈ FILE_CATEGORIES, ∀ x ∈ p.2, x ∈ q.2 → p = q := by
  decide

/-- In a pairwise-disjoint table, the row containing the lowercased
extension is the one `get_category_in` returns. -/
theorem get_category_in_eq_of_mem :
    ∀ (table : List (String × List String)) (e : String) (p : String × List String),
    (∀ q ∈ table, ∀ r ∈ table, ∀ x ∈ q.2, x ∈ r.2 → q = r) →
    p ∈ table → pyLower e ∈ p.2 → get_category_in table e = p.1 := by
  intro table
  induction table with
  | nil => intro e p _ hp _; simp at hp
  | cons a rest ih =>
    intro e p hdisj hp hmem
    by_cases ha : pyLower e ∈ a.2
    · have hpa : p = a := hdisj p hp a (by simp) (pyLower e) hmem ha
      unfold get_category_in
      rw [List.find?_cons_of_pos _ (by simpa using ha)]
      simp [hpa]
    · have hpr : p ∈ rest := by
        rcases List.mem_cons.mp hp with rfl | h
        · exact absurd hmem ha
        · exact h
      have hstep : get_category_in (a :: rest) e = get_category_in rest e := by
        unfold get_category_in
        rw [List.find?_cons_of_neg _ (by simpa using ha)]
      rw [hstep]
      exact ih e p
        (fun q hq r hr => hdisj q (List.mem_cons_of_mem a hq) r (List.mem_cons_of_mem a hr))
        hpr hmem

/-- When no row's list contains the lowercased extension, the catch-all
is returned. -/
theorem get_category_in_eq_others (table : List (String × List String)) (e : String)
    (h : ∀ p ∈ table, pyLower e ∉ p.2) : get_category_in table e = "Others" := by
  unfold get_category_in
  rw [List.find?_eq_none.mpr (by simpa using h)]

/-- C1: for every extension string, `get_category` returns the category
whose configured list contains the lowercased extension, and `"Others"`
when no list contains it; matching is case-insensitive (`".JPG"` and
`".jpg"` both classify as `Images`); the function is total and
deterministic (it is a Lean function). -/
theorem get_category_correct :
    (∀ e : String, ∀ p ∈ FILE_CATEGORIES, pyLower e ∈ p.2 → get_category e = p.1)
    ∧ (∀ e : String, (∀ p ∈ FILE_CATEGORIES, pyLower e ∉ p.2) → get_category e = "Others")
    ∧ get_category ".JPG" = "Images" ∧ get_category ".jpg" = "Images" := by
  refine ⟨?_, ?_, by decide, by decide⟩
  · intro e p hp hmem
    exact get_category_in_eq_of_mem FILE_CATEGORIES e p categories_disjoint hp hmem
  · intro e h
    exact get_category_in_eq_others FILE_CATEGORIES e h

/-- Witness for C1 at a concrete input: `".JPG"` lies in the `Images`
row's list after lowercasing, and classifies as `Images`. -/
theorem get_category_correct_witness :
    ("PDFs", [".pdf"]) ∈ FILE_CATEGORIES ∧ pyLower ".PDF" ∈ [".pdf"] ∧
    get_category ".PDF" = "PDFs" :=
  ⟨by decide, by decide, get_category_correct.1 ".PDF" ("PDFs", [".pdf"]) (by decide) (by decide)⟩

/-- C8: the configured extension lists are pairwise disjoint (so exactly
one row matches any matched extension), and — even for an arbitrary,
possibly overlapping table — the first matching row in enumeration order
wins. -/
theorem first_match_wins :
    (∀ p ∈ FILE_CATEGORIES, ∀ q ∈ FILE_CATEGORIES, ∀ x ∈ p.2, x ∈ q.2 → p = q)
    ∧ (∀ (t1 t2 : List (String × List String)) (cat : String) (exts : List String) (e : String),
        pyLower e ∈ exts → (∀ p ∈ t1, pyLower e ∉ p.2) →
        get_category_in (t1 ++ (cat, exts) :: t2) e = cat) := by
  refine ⟨categories_disjoint, ?_⟩
  intro t1 t2 cat exts e hmem hnone
  induction t1 with
  | nil =>
    unfold get_category_in
    rw [List.nil_append, List.find?_cons_of_pos _ (by simpa using hmem)]
  | cons a rest ih =>
    have ha : pyLower e ∉ a.2 := hnone a (by simp)
    have hstep : get_category_in ((a :: rest) ++ (cat, exts) :: t2) e
        = get_category_in (rest ++ (cat, exts) :: t2) e := by
      unfold get_category_in
      rw [List.cons_append, List.find?_cons_of_neg _ (by simpa using ha)]
    rw [hstep]
    exact ih (fun p hp => hnone p (List.mem_cons_of_mem a hp))

/-- Witness for C8 at a concrete overlapping table: with `".x"` claimed
by both the second and the third row, the scan returns the second row,
the first matching one in enumeration order. -/
theorem first_match_wins_witness :
    pyLower ".x" ∈ [".x", ".y"] ∧
    get_category_in [("A", [".a"]), ("B", [".x", ".y"]), ("C", [".x"])] ".x" = "B" :=
  ⟨by decide,
   first_match_wins.2 [("A", [".a"])] [("C", [".x"])] "B" [".x", ".y"] ".x"
     (by decide) (by decide)⟩

/-- C9: a name without a suffix yields the empty extension, the empty
extension matches no configured list (not even the catch-all's empty
list) and classifies as `"Others"`, and a run over an eligible
suffix-less file moves it into the `Others` folder. -/
theorem empty_extension_others :
    pathSuffix "README" = "" ∧ get_category "" = "Others" ∧
    (organize_desktop [] ⟨true, [⟨"README", true⟩], []⟩).muts
      = [Mutation.mkdir "Others", Mutation.move "README" "Others" "README"] ∧
    lookupFolder (organize_desktop [] ⟨true, [⟨"README", true⟩], []⟩).folders "Others"
      = ["README"] := by
  refine ⟨by decide, by decide, by decide, by decide⟩

/-! ### Name-resolver claim -/

/-- C2: `get_unique_filename` returns the proposed name unchanged when it
is free; otherwise it returns `stem(k)ext` for the least `k ≥ 1` whose
candidate is free; the result never collides with an existing entry; and
with contiguous pre-existing collisions `stem(1)ext … stem(N-1)ext` plus
the plain name, it returns the candidate with counter `N`. -/
theorem get_unique_filename_correct (dir : List String) (filename : String) :
    (filename ∉ dir → get_unique_filename dir filename = filename)
    ∧ get_unique_filename dir filename ∉ dir
    ∧ (filename ∈ dir →
        ∃ k, 1 ≤ k
          ∧ get_unique_filename dir filename
              = candidateName (pathStem filename) (pathSuffix filename) k
          ∧ candidateName (pathStem filename) (pathSuffix filename) k ∉ dir
          ∧ ∀ j, 1 ≤ j → j < k →
              candidateName (pathStem filename) (pathSuffix filename) j ∈ dir)
    ∧ (∀ N, 1 ≤ N → filename ∈ dir →
        (∀ j, 1 ≤ j → j < N →
          candidateName (pathStem filename) (pathSuffix filename) j ∈ dir) →
        candidateName (pathStem filename) (pathSuffix filename) N ∉ dir →
        get_unique_filename dir filename
          = candidateName (pathStem filename) (pathSuffix filename) N) := by
  by_cases hmem : filename ∈ dir
  · refine ⟨fun h => absurd hmem h, ?_, ?_, ?_⟩
    · unfold get_unique_filename
      rw [if_pos hmem]
      exact Nat.find_spec (exists_fresh_candidate dir (pathStem filename) (pathSuffix filename))
    · intro _
      refine ⟨Nat.find (exists_fresh_candidate dir (pathStem filename) (pathSuffix filename)) + 1,
        by omega, ?_, ?_, ?_⟩
      · unfold get_unique_filename
        rw [if_pos hmem]
      · exact Nat.find_spec (exists_fresh_candidate dir (pathStem filename) (pathSuffix filename))
      · intro j h1 h2
        have hj : j - 1 <
            Nat.find (exists_fresh_candidate dir (pathStem filename) (pathSuffix filename)) := by
          omega
        have hmin := Nat.find_min
          (exists_fresh_candidate dir (pathStem filename) (pathSuffix filename)) hj
        have hj1 : j - 1 + 1 = j := by omega
        rw [hj1] at hmin
        exact not_not.mp hmin
    · intro N hN _ hall hfree
      unfold get_unique_filename
      rw [if_pos hmem]
      have hfind :
          Nat.find (exists_fresh_candidate dir (pathStem filename) (pathSuffix filename))
            = N - 1 := by
        rw [Nat.find_eq_iff]
        constructor
        · have hsucc : N - 1 + 1 = N := by omega
          rw [hsucc]
          exact hfree
        · intro n hn
          exact not_not.mpr (hall (n + 1) (by omega) (by omega))
      rw [hfind]
      have hsucc : N - 1 + 1 = N := by omega
      rw [hsucc]
  · refine ⟨?_, ?_, fun h => absurd h hmem, fun N _ h => absurd h hmem⟩
    · intro _
      unfold get_unique_filename
      rw [if_neg hmem]
    · unfold get_unique_filename
      rw [if_neg hmem]
      exact hmem

/-- Witness for C2 at a concrete directory: `photo.jpg` plus the
contiguous collision `photo(1).jpg` pre-exist, and the resolver returns
the counter-2 candidate `photo(2).jpg`. -/
theorem get_unique_filename_correct_witness :
    ("photo.jpg" : String) ∈ (["photo.jpg", "photo(1).jpg"] : List String) ∧
    get_unique_filename ["photo.jpg", "photo(1).jpg"] "photo.jpg" = "photo(2).jpg" := by
  refine ⟨by decide, ?_⟩
  have h := (get_unique_filename_correct ["photo.jpg", "photo(1).jpg"] "photo.jpg").2.2.2
    2 (by omega) (by decide) ?_ ?_
  · exact h.trans (by decide)
  · intro j h1 h2
    have hj : j = 1 := by omega
    rw [hj]
    decide
  · decide

/-! ### Loop-step case analysis -/

theorem processItem_skip (failSet : List String) (st : OrgState) (e : Entry)
    (h : ¬ eligibleEntry e) : processItem failSet st e = st := by
  unfold eligibleEntry at h
  push_neg at h
  unfold processItem
  by_cases h1 : e.isFile = false
  · rw [if_pos h1]
  · have h1t : e.isFile = true := by
      cases hb : e.isFile
      · exact absurd hb h1
      · rfl
    rw [if_neg h1]
    by_cases h2 : e.name ∈ IGNORED_FILES
    · rw [if_pos h2]
    · rw [if_neg h2]
      have h3 : startsWithDot e.name = true := by
        have hne := h h1t h2
        cases hs : startsWithDot e.name
        · exact absurd hs hne
        · rfl
      rw [if_pos h3]

theorem processItem_fail (failSet : List String) (st : OrgState) (e : Entry)
    (h : eligibleEntry e) (hf : e.name ∈ failSet) :
    processItem failSet st e =
      { st with folders := ensureFolder st.folders (catOf e),
                rootEntries := ensureRootDir st.rootEntries (catOf e),
                muts := st.muts ++ [Mutation.mkdir (catOf e)],
                msgs := st.msgs ++ [Msg.errMoving e.name] } := by
  obtain ⟨h1, h2, h3⟩ := h
  unfold processItem
  rw [if_neg (by simp [h1]), if_neg h2, if_neg (by simp [h3]), if_pos hf]
  simp [catOf]

theorem processItem_move (failSet : List String) (st : OrgState) (e : Entry)
    (h : eligibleEntry e) (hf : e.name ∉ failSet) :
    processItem failSet st e =
      { rootEntries := (ensureRootDir st.rootEntries (catOf e)).filter
                         (fun x => x.name != e.name),
        folders := addToFolder (ensureFolder st.folders (catOf e)) (catOf e) (destOf st e),
        tally := bumpTally st.tally (catOf e),
        msgs := st.msgs ++ [Msg.moved e.name (catOf e) (destOf st e)],
        muts := st.muts ++ [Mutation.mkdir (catOf e),
                            Mutation.move e.name (catOf e) (destOf st e)] } := by
  obtain ⟨h1, h2, h3⟩ := h
  unfold processItem
  rw [if_neg (by simp [h1]), if_neg h2, if_neg (by simp [h3]), if_neg hf]
  simp [catOf, destOf]

theorem eligibleMove_decide (failSet : List String) (e : Entry) :
    decide (eligibleMove failSet e)
      = (decide (eligibleEntry e) && !decide (e.name ∈ failSet)) := by
  by_cases h1 : eligibleEntry e <;> by_cases h2 : e.name ∈ failSet <;>
    simp [eligibleMove, h1, h2]

theorem moveSrcs_append (a b : List Mutation) :
    moveSrcs (a ++ b) = moveSrcs a ++ moveSrcs b := by
  simp [moveSrcs, List.filterMap_append]

/-! ### Traversal invariants (by induction over the snapshot) -/

theorem foldl_moveSrcs (failSet : List String) :
    ∀ (todo : List Entry) (st : OrgState),
    moveSrcs ((todo.foldl (processItem failSet) st).muts)
      = moveSrcs st.muts
        ++ (todo.filter (fun e => decide (eligibleMove failSet e))).map Entry.name := by
  intro todo
  induction todo with
  | nil => intro st; simp
  | cons a rest ih =>
    intro st
    rw [List.foldl_cons]
    by_cases ha : eligibleEntry a
    · by_cases haf : a.name ∈ failSet
      · have hnm : decide (eligibleMove failSet a) = false := by
          simp [eligibleMove, haf]
        rw [processItem_fail failSet st a ha haf, ih, List.filter_cons, hnm]
        simp [moveSrcs_append, moveSrcs]
      · have hm : decide (eligibleMove failSet a) = true := by
          simp [eligibleMove, ha, haf]
        rw [processItem_move failSet st a ha haf, ih, List.filter_cons, hm]
        simp [moveSrcs_append, moveSrcs]
    · have hnm : decide (eligibleMove failSet a) = false := by
        simp [eligibleMove, ha]
      rw [processItem_skip failSet st a ha, ih, List.filter_cons, hnm]
      simp

theorem totalTally_bump (t : List (String × Nat)) (c : String) :
    totalTally (bumpTally t c) = totalTally t + 1 := by
  induction t with
  | nil => simp [bumpTally, totalTally]
  | cons p rest ih =>
    by_cases h : p.1 = c
    · simp [bumpTally, h, totalTally]
      omega
    · simp [bumpTally, h, totalTally] at ih ⊢
      omega

theorem foldl_totalTally (failSet : List String) :
    ∀ (todo : List Entry) (st : OrgState),
    totalTally ((todo.foldl (processItem failSet) st).tally)
      = totalTally st.tally + todo.countP (fun e => decide (eligibleMove failSet e)) := by
  intro todo
  induction todo with
  | nil => intro st; simp
  | cons a rest ih =>
    intro st
    rw [List.foldl_cons, List.countP_cons]
    by_cases ha : eligibleEntry a
    · by_cases haf : a.name ∈ failSet
      · have hnm : decide (eligibleMove failSet a) = false := by
          simp [eligibleMove, haf]
        rw [processItem_fail failSet st a ha haf, ih, hnm]
        simp
      · have hm : decide (eligibleMove failSet a) = true := by
          simp [eligibleMove, ha, haf]
        rw [processItem_move failSet st a ha haf, ih, hm]
        simp [totalTally_bump]
        omega
    · have hnm : decide (eligibleMove failSet a) = false := by
        simp [eligibleMove, ha]
      rw [processItem_skip failSet st a ha, ih, hnm]
      simp

theorem foldl_errCount (failSet : List String) :
    ∀ (todo : List Entry) (st : OrgState),
    ((todo.foldl (processItem failSet) st).msgs).countP isErrMsg
      = st.msgs.countP isErrMsg
        + todo.countP (fun e => decide (eligibleEntry e) && decide (e.name ∈ failSet)) := by
  intro todo
  induction todo with
  | nil => intro st; simp
  | cons a rest ih =>
    intro st
    rw [List.foldl_cons, List.countP_cons]
    by_cases ha : eligibleEntry a
    · by_cases haf : a.name ∈ failSet
      · rw [processItem_fail failSet st a ha haf, ih]
        simp [ha, haf, List.countP_append, isErrMsg]
        omega
      · rw [processItem_move failSet st a ha haf, ih]
        simp [haf, List.countP_append, isErrMsg]
    · rw [processItem_skip failSet st a ha, ih]
      simp [ha]

theorem mem_of_mem_ensureRootDir {items : List Entry} {c : String} {e : Entry}
    (h : e ∈ ensureRootDir items c) : e ∈ items ∨ e = ⟨c, false⟩ := by
  unfold ensureRootDir at h
  by_cases hc : items.any (fun x => x.name == c) = true
  · rw [if_pos hc] at h
    exact Or.inl h
  · rw [if_neg hc] at h
    rcases List.mem_append.mp h with h1 | h1
    · exact Or.inl h1
    · simp at h1
      exact Or.inr h1

theorem mem_ensureRootDir_of_mem {items : List Entry} {c : String} {e : Entry}
    (h : e ∈ items) : e ∈ ensureRootDir items c := by
  unfold ensureRootDir
  by_cases hc : items.any (fun x => x.name == c) = true
  · rw [if_pos hc]; exact h
  · rw [if_neg hc]; exact List.mem_append_left _ h

theorem foldl_root_mem (failSet : List String) :
    ∀ (todo : List Entry) (st : OrgState) (e : Entry),
    e ∈ st.rootEntries →
    (∀ a ∈ todo, eligibleMove failSet a → a.name ≠ e.name) →
    e ∈ (todo.foldl (processItem failSet) st).rootEntries := by
  intro todo
  induction todo with
  | nil => intro st e he _; exact he
  | cons a rest ih =>
    intro st e he hname
    rw [List.foldl_cons]
    by_cases ha : eligibleEntry a
    · by_cases haf : a.name ∈ failSet
      · rw [processItem_fail failSet st a ha haf]
        exact ih _ e (mem_ensureRootDir_of_mem he)
          (fun b hb => hname b (List.mem_cons_of_mem a hb))
      · rw [processItem_move failSet st a ha haf]
        refine ih _ e ?_ (fun b hb => hname b (List.mem_cons_of_mem a hb))
        have hne : a.name ≠ e.name :=
          hname a (List.mem_cons_self a rest) ⟨ha, haf⟩
        refine List.mem_filter.mpr ⟨mem_ensureRootDir_of_mem he, ?_⟩
        simp [bne]
        exact fun hcontra => hne hcontra.symm
    · rw [processItem_skip failSet st a ha]
      exact ih st e he (fun b hb => hname b (List.mem_cons_of_mem a hb))

theorem foldl_no_eligible_left (failSet : List String) :
    ∀ (todo : List Entry) (st : OrgState),
    (∀ e ∈ st.rootEntries, eligibleMove failSet e → e ∈ todo) →
    ∀ e ∈ (todo.foldl (processItem failSet) st).rootEntries, ¬ eligibleMove failSet e := by
  intro todo
  induction todo with
  | nil =>
    intro st h e he helig
    exact absurd (h e he helig) (List.not_mem_nil e)
  | cons a rest ih =>
    intro st h
    rw [List.foldl_cons]
    by_cases ha : eligibleEntry a
    · by_cases haf : a.name ∈ failSet
      · rw [processItem_fail failSet st a ha haf]
        refine ih _ ?_
        intro e he helig
        rcases mem_of_mem_ensureRootDir he with h1 | h1
        · rcases List.mem_cons.mp (h e h1 helig) with rfl | h2
          · exact absurd haf helig.2
          · exact h2
        · rw [h1] at helig
          simpa using helig.1.1
      · rw [processItem_move failSet st a ha haf]
        refine ih _ ?_
        intro e he helig
        have hmem := List.mem_filter.mp he
        have hne : e.name ≠ a.name := by
          have := hmem.2
          simp [bne] at this
          exact this
        rcases mem_of_mem_ensureRootDir hmem.1 with h1 | h1
        · rcases List.mem_cons.mp (h e h1 helig) with rfl | h2
          · exact absurd rfl hne
          · exact h2
        · rw [h1] at helig
          simpa using helig.1.1
    · rw [processItem_skip failSet st a ha]
      refine ih st ?_
      intro e he helig
      rcases List.mem_cons.mp (h e he helig) with rfl | h2
      · exact absurd helig.1 ha
      · exact h2

theorem foldl_muts_shape (failSet : List String) :
    ∀ (todo : List Entry) (st : OrgState) (m : Mutation),
    m ∈ (todo.foldl (processItem failSet) st).muts →
    m ∈ st.muts
    ∨ (∃ e ∈ todo, m = Mutation.mkdir (catOf e))
    ∨ (∃ e ∈ todo, ∃ d, m = Mutation.move e.name (catOf e) d) := by
  intro todo
  induction todo with
  | nil => intro st m hm; exact Or.inl hm
  | cons a rest ih =>
    intro st m hm
    rw [List.foldl_cons] at hm
    by_cases ha : eligibleEntry a
    · by_cases haf : a.name ∈ failSet
      · rw [processItem_fail failSet st a ha haf] at hm
        rcases ih _ m hm with h1 | h1 | h1
        · rcases List.mem_append.mp h1 with h2 | h2
          · exact Or.inl h2
          · simp at h2
            exact Or.inr (Or.inl ⟨a, List.mem_cons_self a rest, h2⟩)
        · obtain ⟨e, he, hme⟩ := h1
          exact Or.inr (Or.inl ⟨e, List.mem_cons_of_mem a he, hme⟩)
        · obtain ⟨e, he, hme⟩ := h1
          exact Or.inr (Or.inr ⟨e, List.mem_cons_of_mem a he, hme⟩)
      · rw [processItem_move failSet st a ha haf] at hm
        rcases ih _ m hm with h1 | h1 | h1
        · rcases List.mem_append.mp h1 with h2 | h2
          · exact Or.inl h2
          · rcases List.mem_cons.mp h2 with h3 | h3
            · exact Or.inr (Or.inl ⟨a, List.mem_cons_self a rest, h3⟩)
            · simp at h3
              exact Or.inr (Or.inr ⟨a, List.mem_cons_self a rest, destOf st a, h3⟩)
        · obtain ⟨e, he, hme⟩ := h1
          exact Or.inr (Or.inl ⟨e, List.mem_cons_of_mem a he, hme⟩)
        · obtain ⟨e, he, hme⟩ := h1
          exact Or.inr (Or.inr ⟨e, List.mem_cons_of_mem a he, hme⟩)
    · rw [processItem_skip failSet st a ha] at hm
      rcases ih st m hm with h1 | h1 | h1
      · exact Or.inl h1
      · obtain ⟨e, he, hme⟩ := h1
        exact Or.inr (Or.inl ⟨e, List.mem_cons_of_mem a he, hme⟩)
      · obtain ⟨e, he, hme⟩ := h1
        exact Or.inr (Or.inr ⟨e, List.mem_cons_of_mem a he, hme⟩)

theorem countP_and_split {α : Type} (l : List α) (p q : α → Bool) :
    l.countP (fun a => p a && q a) + l.countP (fun a => p a && !q a) = l.countP p := by
  induction l with
  | nil => simp
  | cons a rest ih =>
    simp only [List.countP_cons]
    cases hp : p a <;> cases hq : q a <;> simp [hp, hq] <;> omega

/-- `get_category` always returns one of the seven configured labels. -/
theorem get_category_mem_labels (ext : String) : get_category ext ∈ categoryLabels := by
  unfold get_category get_category_in
  cases hfind : FILE_CATEGORIES.find? (fun p => pyLower ext ∈ p.2) with
  | none => decide
  | some p =>
    have hp := List.mem_of_find?_eq_some hfind
    exact List.mem_map_of_mem Prod.fst hp

theorem summaryMsgs_no_err (t : List (String × Nat)) :
    (summaryMsgs t).countP isErrMsg = 0 := by
  unfold summaryMsgs
  by_cases h : totalTally t = 0
  · rw [if_pos h]; rfl
  · rw [if_neg h]
    rw [List.countP_eq_zero]
    intro m hm
    rcases List.mem_append.mp hm with h1 | h1
    · obtain ⟨c, _, rfl⟩ := List.mem_map.mp h1
      simp [isErrMsg]
    · simp at h1
      rw [h1]
      simp [isErrMsg]

/-! ### Claims about `organize_desktop` -/

/-- C3 as stated is false: at a missing root the run does report the
error once and performs zero mutations, but the exit status is 0
(`organize_desktop` merely returns and `__main__` never calls
`sys.exit`), so the non-zero-exit conjunct fails. -/
theorem missing_root_nonzero_exit_cex :
    ¬ ((organize_desktop [] ⟨false, [], []⟩).msgs = [Msg.errRootMissing]
       ∧ (organize_desktop [] ⟨false, [], []⟩).muts = []
       ∧ main_exit_code [] ⟨false, [], []⟩ ≠ 0) := by
  decide

/-- C3 (amended): if the root directory does not exist, the run reports
the error exactly once, performs zero filesystem mutations, terminates
immediately, and the process exits with status 0 (not non-zero: the
source merely returns). -/
theorem missing_root_aborts (failSet : List String) (s : DirState)
    (h : s.rootExists = false) :
    (organize_desktop failSet s).msgs = [Msg.errRootMissing]
    ∧ (organize_desktop failSet s).muts = []
    ∧ (organize_desktop failSet s).finalRoot = s.rootEntries
    ∧ (organize_desktop failSet s).folders = s.folders
    ∧ main_exit_code failSet s = 0 := by
  refine ⟨?_, ?_, ?_, ?_, rfl⟩ <;>
    · unfold organize_desktop
      rw [if_pos h]

/-- Witness for the amended C3 at a concrete missing-root state. -/
theorem missing_root_aborts_witness :
    (⟨false, [], []⟩ : DirState).rootExists = false
    ∧ (organize_desktop [] ⟨false, [], []⟩).msgs = [Msg.errRootMissing]
    ∧ main_exit_code [] ⟨false, [], []⟩ = 0 :=
  ⟨rfl, (missing_root_aborts [] ⟨false, [], []⟩ rfl).1,
   (missing_root_aborts [] ⟨false, [], []⟩ rfl).2.2.2.2⟩

/-- C4: per-file move failures are contained.  The tally total counts
exactly the eligible entries whose move succeeds, one move-error line is
printed per eligible entry whose move raises, and when exactly one of
`N` eligible files fails the reported total is `N - 1`. -/
theorem move_failure_isolated (failSet : List String) (s : DirState)
    (hroot : s.rootExists = true) :
    totalTally (organize_desktop failSet s).tally
      = s.rootEntries.countP (fun e => decide (eligibleMove failSet e))
    ∧ (organize_desktop failSet s).msgs.countP isErrMsg
      = s.rootEntries.countP (fun e => decide (eligibleEntry e) && decide (e.name ∈ failSet))
    ∧ (∀ N, s.rootEntries.countP (fun e => decide (eligibleEntry e)) = N →
        s.rootEntries.countP
            (fun e => decide (eligibleEntry e) && decide (e.name ∈ failSet)) = 1 →
        totalTally (organize_desktop failSet s).tally = N - 1) := by
  have hne : ¬ (s.rootExists = false) := by simp [hroot]
  have htally : totalTally (organize_desktop failSet s).tally
      = s.rootEntries.countP (fun e => decide (eligibleMove failSet e)) := by
    unfold organize_desktop
    rw [if_neg hne]
    rw [foldl_totalTally]
    simp [totalTally]
  refine ⟨htally, ?_, ?_⟩
  · unfold organize_desktop
    rw [if_neg hne]
    rw [List.countP_append, summaryMsgs_no_err, foldl_errCount]
    simp [isErrMsg]
  · intro N hN h1
    rw [htally]
    have hsplit := countP_and_split s.rootEntries
      (fun e => decide (eligibleEntry e)) (fun e => decide (e.name ∈ failSet))
    have hcongr : s.rootEntries.countP (fun e => decide (eligibleMove failSet e))
        = s.rootEntries.countP
            (fun e => decide (eligibleEntry e) && !decide (e.name ∈ failSet)) := by
      apply List.countP_congr
      intro a _
      rw [eligibleMove_decide failSet a]
    rw [hcongr]
    omega

/-- Witness for C4: of two eligible files with one injected failure, one
is tallied and one error line is printed, so the total is `2 - 1`. -/
theorem move_failure_isolated_witness :
    (⟨true, [⟨"a.txt", true⟩, ⟨"b.txt", true⟩], []⟩ : DirState).rootExists = true
    ∧ totalTally (organize_desktop ["b.txt"]
        ⟨true, [⟨"a.txt", true⟩, ⟨"b.txt", true⟩], []⟩).tally = 2 - 1 :=
  ⟨rfl,
   (move_failure_isolated ["b.txt"] ⟨true, [⟨"a.txt", true⟩, ⟨"b.txt", true⟩], []⟩ rfl).2.2
     2 (by decide) (by decide)⟩

/-- C5: an entry of the snapshot is skipped — left in the root, never
moved — exactly when it is not a regular file, or its name is in the
ignore set, or its name starts with a dot.  Moves are characterized by
`eligibleMove` (the filter plus a non-failing move), and every entry
failing the filter survives in the root. -/
theorem skip_rule (failSet : List String) (s : DirState) (e : Entry)
    (hroot : s.rootExists = true)
    (hnd : (s.rootEntries.map Entry.name).Nodup)
    (he : e ∈ s.rootEntries) :
    (e.name ∈ moveSrcs (organize_desktop failSet s).muts ↔ eligibleMove failSet e)
    ∧ (¬ eligibleEntry e → e ∈ (organize_desktop failSet s).finalRoot) := by
  have hne : ¬ (s.rootExists = false) := by simp [hroot]
  have hinj := List.inj_on_of_nodup_map hnd
  constructor
  · unfold organize_desktop
    rw [if_neg hne]
    rw [foldl_moveSrcs]
    simp only [moveSrcs, List.filterMap_nil, List.nil_append]
    constructor
    · intro hmem
      obtain ⟨a, ha, hae⟩ := List.mem_map.mp hmem
      have ha2 := List.mem_filter.mp ha
      have : a = e := hinj ha2.1 he hae
      rw [← this]
      exact of_decide_eq_true ha2.2
    · intro helig
      exact List.mem_map.mpr ⟨e, List.mem_filter.mpr ⟨he, decide_eq_true helig⟩, rfl⟩
  · intro hnel
    unfold organize_desktop
    rw [if_neg hne]
    refine foldl_root_mem failSet s.rootEntries _ e he ?_
    intro a ha helig hname
    exact hnel (hinj ha he hname ▸ helig.1)

/-- Witness for C5 at a concrete snapshot: the metadata file
`.DS_Store` is not moved and stays in the root, while `a.txt` is
moved. -/
theorem skip_rule_witness :
    (⟨".DS_Store", true⟩ : Entry) ∈
      ([⟨".DS_Store", true⟩, ⟨"a.txt", true⟩] : List Entry)
    ∧ (⟨".DS_Store", true⟩ : Entry) ∈
        (organize_desktop [] ⟨true, [⟨".DS_Store", true⟩, ⟨"a.txt", true⟩], []⟩).finalRoot :=
  ⟨by decide,
   (skip_rule [] ⟨true, [⟨".DS_Store", true⟩, ⟨"a.txt", true⟩], []⟩ ⟨".DS_Store", true⟩
      rfl (by decide) (by decide)).2 (by decide)⟩

theorem organize_desktop_muts (failSet : List String) (s : DirState)
    (h : s.rootExists = true) :
    (organize_desktop failSet s).muts
      = (s.rootEntries.foldl (processItem failSet)
          ⟨s.rootEntries, s.folders, [], [Msg.header], []⟩).muts := by
  unfold organize_desktop
  rw [if_neg (by simp [h])]

theorem organize_desktop_tally (failSet : List String) (s : DirState)
    (h : s.rootExists = true) :
    (organize_desktop failSet s).tally
      = (s.rootEntries.foldl (processItem failSet)
          ⟨s.rootEntries, s.folders, [], [Msg.header], []⟩).tally := by
  unfold organize_desktop
  rw [if_neg (by simp [h])]

theorem organize_desktop_finalRoot (failSet : List String) (s : DirState)
    (h : s.rootExists = true) :
    (organize_desktop failSet s).finalRoot
      = (s.rootEntries.foldl (processItem failSet)
          ⟨s.rootEntries, s.folders, [], [Msg.header], []⟩).rootEntries := by
  unfold organize_desktop
  rw [if_neg (by simp [h])]

theorem organize_desktop_nothing_msg (failSet : List String) (s : DirState)
    (h : s.rootExists = true)
    (h0 : totalTally (organize_desktop failSet s).tally = 0) :
    (organize_desktop failSet s).msgs.getLast? = some Msg.summaryNothing := by
  unfold organize_desktop at h0 ⊢
  rw [if_neg (by simp [h])] at h0 ⊢
  rw [List.getLast?_append]
  unfold summaryMsgs
  rw [if_pos h0]
  rfl

/-- C7: rerunning the organizer on the directory state a first run left
behind (same injected failures, no other actor) performs zero moves and
reports the "nothing to organize" notice. -/
theorem rerun_reports_nothing (failSet : List String) (s : DirState)
    (hroot : s.rootExists = true) :
    moveSrcs (organize_desktop failSet
        ⟨true, (organize_desktop failSet s).finalRoot,
         (organize_desktop failSet s).folders⟩).muts = []
    ∧ totalTally (organize_desktop failSet
        ⟨true, (organize_desktop failSet s).finalRoot,
         (organize_desktop failSet s).folders⟩).tally = 0
    ∧ (organize_desktop failSet
        ⟨true, (organize_desktop failSet s).finalRoot,
         (organize_desktop failSet s).folders⟩).msgs.getLast?
      = some Msg.summaryNothing := by
  have hfinal : ∀ e ∈ (organize_desktop failSet s).finalRoot, ¬ eligibleMove failSet e := by
    rw [organize_desktop_finalRoot failSet s hroot]
    exact foldl_no_eligible_left failSet s.rootEntries _ (fun e he _ => he)
  have hcount : ((organize_desktop failSet s).finalRoot).countP
      (fun e => decide (eligibleMove failSet e)) = 0 := by
    rw [List.countP_eq_zero]
    intro a ha
    simpa using hfinal a ha
  have htot : totalTally (organize_desktop failSet
      ⟨true, (organize_desktop failSet s).finalRoot,
       (organize_desktop failSet s).folders⟩).tally = 0 := by
    rw [organize_desktop_tally failSet _ rfl, foldl_totalTally]
    simpa [totalTally] using hcount
  refine ⟨?_, htot, ?_⟩
  · rw [organize_desktop_muts failSet _ rfl, foldl_moveSrcs]
    simp only [moveSrcs, List.filterMap_nil, List.nil_append, List.map_eq_nil_iff,
      List.filter_eq_nil_iff]
    intro a ha
    simpa using hfinal a ha
  · exact organize_desktop_nothing_msg failSet _ rfl htot

/-- Witness for C7: after organizing a root holding one eligible file,
a second run moves nothing and reports the nothing-to-organize case. -/
theorem rerun_reports_nothing_witness :
    (⟨true, [⟨"a.txt", true⟩], []⟩ : DirState).rootExists = true
    ∧ moveSrcs (organize_desktop []
        ⟨true, (organize_desktop [] ⟨true, [⟨"a.txt", true⟩], []⟩).finalRoot,
         (organize_desktop [] ⟨true, [⟨"a.txt", true⟩], []⟩).folders⟩).muts = [] :=
  ⟨rfl, (rerun_reports_nothing [] ⟨true, [⟨"a.txt", true⟩], []⟩ rfl).1⟩

/-- C10: every recorded mutation is either the creation of a category
subfolder under the root for one of the seven configured labels, or a
move of a snapshot entry from the root into such a subfolder (the
mutation trace is, by construction of the model, the complete set of
filesystem writes the source performs). -/
theorem mutations_confined (failSet : List String) (s : DirState) (m : Mutation)
    (hm : m ∈ (organize_desktop failSet s).muts) :
    (∃ cat ∈ categoryLabels, m = Mutation.mkdir cat)
    ∨ (∃ e ∈ s.rootEntries, ∃ cat ∈ categoryLabels, ∃ dest,
        m = Mutation.move e.name cat dest) := by
  by_cases hroot : s.rootExists = false
  · unfold organize_desktop at hm
    rw [if_pos hroot] at hm
    simp at hm
  · unfold organize_desktop at hm
    rw [if_neg hroot] at hm
    rcases foldl_muts_shape failSet s.rootEntries _ m hm with h1 | h1 | h1
    · simp at h1
    · obtain ⟨e, he, rfl⟩ := h1
      exact Or.inl ⟨catOf e, get_category_mem_labels (pathSuffix e.name), rfl⟩
    · obtain ⟨e, he, d, rfl⟩ := h1
      exact Or.inr ⟨e, he, catOf e, get_category_mem_labels (pathSuffix e.name), d, rfl⟩

/-- Witness for C10 at a concrete run: the move of `a.txt` recorded by
the run targets the `Documents` label. -/
theorem mutations_confined_witness :
    Mutation.move "a.txt" "Documents" "a.txt"
      ∈ (organize_desktop [] ⟨true, [⟨"a.txt", true⟩], []⟩).muts
    ∧ ((∃ cat ∈ categoryLabels, Mutation.move "a.txt" "Documents" "a.txt" = Mutation.mkdir cat)
       ∨ (∃ e ∈ (⟨true, [⟨"a.txt", true⟩], []⟩ : DirState).rootEntries,
           ∃ cat ∈ categoryLabels, ∃ dest,
           Mutation.move "a.txt" "Documents" "a.txt" = Mutation.move e.name cat dest)) :=
  ⟨by decide,
   mutations_confined [] ⟨true, [⟨"a.txt", true⟩], []⟩
     (Mutation.move "a.txt" "Documents" "a.txt") (by decide)⟩

/-! ### Tally structure and the summary block (C6) -/

theorem tallyCount_nil (c : String) : tallyCount [] c = 0 := rfl

theorem tallyCount_cons (p : String × Nat) (rest : List (String × Nat)) (c : String) :
    tallyCount (p :: rest) c = if p.1 = c then p.2 else tallyCount rest c := by
  by_cases h : p.1 = c
  · unfold tallyCount
    rw [List.find?_cons_of_pos _ (by simp [h])]
    simp [h]
  · unfold tallyCount
    rw [List.find?_cons_of_neg _ (by simp [h])]
    simp [h]

theorem tallyCount_bump (t : List (String × Nat)) (c c' : String) :
    tallyCount (bumpTally t c) c' = tallyCount t c' + (if c' = c then 1 else 0) := by
  induction t with
  | nil =>
    rw [show bumpTally [] c = [(c, 1)] from rfl, tallyCount_cons, tallyCount_nil]
    by_cases h : c' = c <;> simp [h]
    exact fun hc => h hc.symm
  | cons p rest ih =>
    by_cases hp : p.1 = c
    · rw [show bumpTally (p :: rest) c = (p.1, p.2 + 1) :: rest by simp [bumpTally, hp],
          tallyCount_cons, tallyCount_cons]
      by_cases hc : p.1 = c'
      · have hcc : c' = c := hc ▸ hp
        simp [hc, hcc]
      · have hcc : ¬ (c' = c) := fun h => hc (hp.symm ▸ h.symm)
        simp [hc, hcc]
    · rw [show bumpTally (p :: rest) c = p :: bumpTally rest c by simp [bumpTally, hp],
          tallyCount_cons, tallyCount_cons]
      by_cases hc : p.1 = c'
      · have hcc : ¬ (c' = c) := fun h => hp (hc.trans h)
        simp [hc, hcc]
      · simp [hc, ih]

theorem foldl_tallyCount (failSet : List String) (c : String) :
    ∀ (todo : List Entry) (st : OrgState),
    tallyCount ((todo.foldl (processItem failSet) st).tally) c
      = tallyCount st.tally c
        + todo.countP (fun e => decide (eligibleMove failSet e) && (catOf e == c)) := by
  intro todo
  induction todo with
  | nil => intro st; simp
  | cons a rest ih =>
    intro st
    rw [List.foldl_cons, List.countP_cons]
    by_cases ha : eligibleEntry a
    · by_cases haf : a.name ∈ failSet
      · have hnm : (decide (eligibleMove failSet a) && (catOf a == c)) = false := by
          simp [eligibleMove, haf]
        rw [processItem_fail failSet st a ha haf, ih, hnm]
        simp
      · by_cases hcat : catOf a = c
        · have hm : (decide (eligibleMove failSet a) && (catOf a == c)) = true := by
            simp [eligibleMove, ha, haf, hcat]
          rw [processItem_move failSet st a ha haf, ih, tallyCount_bump, hm,
              if_pos hcat.symm]
          simp
          omega
        · have hm : (decide (eligibleMove failSet a) && (catOf a == c)) = false := by
            simp [hcat]
          have hcc : ¬ (c = catOf a) := fun h => hcat h.symm
          rw [processItem_move failSet st a ha haf, ih, tallyCount_bump, hm,
              if_neg hcc]
          simp
    · have hnm : (decide (eligibleMove failSet a) && (catOf a == c)) = false := by
        simp [eligibleMove, ha]
      rw [processItem_skip failSet st a ha, ih, hnm]
      simp

theorem bumpTally_keys (t : List (String × Nat)) (c : String) :
    (bumpTally t c).map Prod.fst
      = if c ∈ t.map Prod.fst then t.map Prod.fst else t.map Prod.fst ++ [c] := by
  induction t with
  | nil => simp [bumpTally]
  | cons p rest ih =>
    by_cases hp : p.1 = c
    · rw [show bumpTally (p :: rest) c = (p.1, p.2 + 1) :: rest by simp [bumpTally, hp]]
      simp [hp]
    · rw [show bumpTally (p :: rest) c = p :: bumpTally rest c by simp [bumpTally, hp]]
      by_cases hc : c ∈ rest.map Prod.fst
      · simp [ih, hc, hp]
      · have hcp : c ∉ (p :: rest).map Prod.fst := by
          intro hmem
          rw [List.map_cons] at hmem
          rcases List.mem_cons.mp hmem with h1 | h1
          · exact hp h1.symm
          · exact hc h1
        rw [if_neg hcp]
        simp [ih, hc]

theorem bumpTally_keys_nodup (t : List (String × Nat)) (c : String)
    (h : (t.map Prod.fst).Nodup) : ((bumpTally t c).map Prod.fst).Nodup := by
  rw [bumpTally_keys]
  by_cases hc : c ∈ t.map Prod.fst
  · rw [if_pos hc]; exact h
  · rw [if_neg hc]
    rw [List.nodup_append]
    exact ⟨h, List.nodup_singleton c, by simpa using hc⟩

theorem bumpTally_pos (t : List (String × Nat)) (c : String)
    (h : ∀ p ∈ t, 1 ≤ p.2) : ∀ p ∈ bumpTally t c, 1 ≤ p.2 := by
  induction t with
  | nil =>
    intro p hp
    simp [bumpTally] at hp
    simp [hp]
  | cons q rest ih =>
    by_cases hq : q.1 = c
    · rw [show bumpTally (q :: rest) c = (q.1, q.2 + 1) :: rest by simp [bumpTally, hq]]
      intro p hp
      rcases List.mem_cons.mp hp with rfl | hp2
      · simp
      · exact h p (List.mem_cons_of_mem q hp2)
    · rw [show bumpTally (q :: rest) c = q :: bumpTally rest c by simp [bumpTally, hq]]
      intro p hp
      rcases List.mem_cons.mp hp with rfl | hp2
      · exact h p (List.mem_cons_self p rest)
      · exact ih (fun r hr => h r (List.mem_cons_of_mem q hr)) p hp2

theorem foldl_tally_keys_nodup (failSet : List String) :
    ∀ (todo : List Entry) (st : OrgState),
    ((st.tally).map Prod.fst).Nodup →
    (((todo.foldl (processItem failSet) st).tally).map Prod.fst).Nodup := by
  intro todo
  induction todo with
  | nil => intro st h; exact h
  | cons a rest ih =>
    intro st h
    rw [List.foldl_cons]
    by_cases ha : eligibleEntry a
    · by_cases haf : a.name ∈ failSet
      · rw [processItem_fail failSet st a ha haf]
        exact ih _ h
      · rw [processItem_move failSet st a ha haf]
        exact ih _ (bumpTally_keys_nodup st.tally (catOf a) h)
    · rw [processItem_skip failSet st a ha]
      exact ih st h

theorem foldl_tally_pos (failSet : List String) :
    ∀ (todo : List Entry) (st : OrgState),
    (∀ p ∈ st.tally, 1 ≤ p.2) →
    ∀ p ∈ (todo.foldl (processItem failSet) st).tally, 1 ≤ p.2 := by
  intro todo
  induction todo with
  | nil => intro st h; exact h
  | cons a rest ih =>
    intro st h
    rw [List.foldl_cons]
    by_cases ha : eligibleEntry a
    · by_cases haf : a.name ∈ failSet
      · rw [processItem_fail failSet st a ha haf]
        exact ih _ h
      · rw [processItem_move failSet st a ha haf]
        exact ih _ (bumpTally_pos st.tally (catOf a) h)
    · rw [processItem_skip failSet st a ha]
      exact ih st h

theorem tallyCount_pos_iff (t : List (String × Nat)) (hpos : ∀ p ∈ t, 1 ≤ p.2)
    (c : String) : c ∈ t.map Prod.fst ↔ 0 < tallyCount t c := by
  constructor
  · intro hc
    obtain ⟨p, hp, hpc⟩ := List.mem_map.mp hc
    have hsome : (t.find? (fun q => q.1 == c)).isSome :=
      List.find?_isSome.mpr ⟨p, hp, by simp [hpc]⟩
    obtain ⟨q, hq⟩ := Option.isSome_iff_exists.mp hsome
    have hqt := List.mem_of_find?_eq_some hq
    unfold tallyCount
    rw [hq]
    exact hpos q hqt
  · intro hc
    unfold tallyCount at hc
    cases hq : t.find? (fun q => q.1 == c) with
    | none => rw [hq] at hc; simp at hc
    | some q =>
      have hqc : q.1 = c := by simpa using List.find?_some hq
      exact List.mem_map.mpr ⟨q, List.mem_of_find?_eq_some hq, hqc⟩

theorem tallyCount_eq_of_mem :
    ∀ (t : List (String × Nat)), (t.map Prod.fst).Nodup →
    ∀ p ∈ t, tallyCount t p.1 = p.2 := by
  intro t
  induction t with
  | nil => intro _ p hp; simp at hp
  | cons q rest ih =>
    intro hnd p hp
    have hnd2 : q.1 ∉ List.map Prod.fst rest ∧ (List.map Prod.fst rest).Nodup := by
      rw [List.map_cons] at hnd
      exact List.nodup_cons.mp hnd
    rw [tallyCount_cons]
    rcases List.mem_cons.mp hp with rfl | hp2
    · rw [if_pos rfl]
    · have hq : q.1 ≠ p.1 := by
        intro hqp
        exact hnd2.1 (hqp ▸ List.mem_map.mpr ⟨p, hp2, rfl⟩)
      rw [if_neg hq]
      exact ih hnd2.2 p hp2

theorem map_tallyCount_keys (t : List (String × Nat))
    (hnd : (t.map Prod.fst).Nodup) :
    (t.map Prod.fst).map (tallyCount t) = t.map Prod.snd := by
  rw [List.map_map]
  exact List.map_congr_left (fun p hp => tallyCount_eq_of_mem t hnd p hp)

theorem strLeB_iff_le (a b : String) : strLeB a b = true ↔ a ≤ b := by
  simp [strLeB, String.le_iff_toList_le]

instance : IsTotal String (fun a b => strLeB a b = true) :=
  ⟨fun a b => by
    rcases le_total a b with h | h
    · exact Or.inl ((strLeB_iff_le a b).mpr h)
    · exact Or.inr ((strLeB_iff_le b a).mpr h)⟩

instance : IsTrans String (fun a b => strLeB a b = true) :=
  ⟨fun a b c hab hbc =>
    (strLeB_iff_le a c).mpr
      (le_trans ((strLeB_iff_le a b).mp hab) ((strLeB_iff_le b c).mp hbc))⟩

theorem sortNames_sorted (l : List String) :
    List.Sorted (fun a b => strLeB a b = true) (sortNames l) :=
  List.sorted_insertionSort _ l

theorem sortNames_perm (l : List String) : (sortNames l).Perm l :=
  List.perm_insertionSort _ l

theorem organize_desktop_msgs_split (failSet : List String) (s : DirState)
    (h : s.rootExists = true) :
    ∃ pre, (organize_desktop failSet s).msgs
      = pre ++ summaryMsgs ((organize_desktop failSet s).tally) := by
  unfold organize_desktop
  rw [if_neg (by simp [h])]
  exact ⟨_, rfl⟩

/-- C6: after all entries are processed the summary reports the
"nothing to organize" notice exactly when no move succeeded; otherwise
it lists exactly the categories with at least one successful move, in
sorted name order, each with its count of successful moves, followed by
a grand total equal to the sum of the listed per-category counts. -/
theorem summary_report (failSet : List String) (s : DirState)
    (hroot : s.rootExists = true) :
    (totalTally (organize_desktop failSet s).tally = 0 ↔
       s.rootEntries.countP (fun e => decide (eligibleMove failSet e)) = 0)
    ∧ (totalTally (organize_desktop failSet s).tally = 0 →
       (organize_desktop failSet s).msgs.getLast? = some Msg.summaryNothing)
    ∧ (0 < totalTally (organize_desktop failSet s).tally →
       ∃ cats : List String,
         List.Sorted (fun a b => strLeB a b = true) cats
         ∧ cats.Nodup
         ∧ (∀ c, c ∈ cats ↔
             0 < s.rootEntries.countP
                   (fun e => decide (eligibleMove failSet e) && (catOf e == c)))
         ∧ (∃ pre, (organize_desktop failSet s).msgs
             = pre
               ++ cats.map (fun c => Msg.summaryCat c
                    (s.rootEntries.countP
                      (fun e => decide (eligibleMove failSet e) && (catOf e == c))))
               ++ [Msg.summaryTotal (totalTally (organize_desktop failSet s).tally)])
         ∧ (cats.map (fun c => s.rootEntries.countP
               (fun e => decide (eligibleMove failSet e) && (catOf e == c)))).sum
             = totalTally (organize_desktop failSet s).tally) := by
  have htot : totalTally (organize_desktop failSet s).tally
      = s.rootEntries.countP (fun e => decide (eligibleMove failSet e)) := by
    rw [organize_desktop_tally failSet s hroot, foldl_totalTally]
    simp [totalTally]
  have htc : ∀ c, tallyCount (organize_desktop failSet s).tally c
      = s.rootEntries.countP (fun e => decide (eligibleMove failSet e) && (catOf e == c)) := by
    intro c
    rw [organize_desktop_tally failSet s hroot, foldl_tallyCount]
    simp [tallyCount_nil]
  have hnd : (((organize_desktop failSet s).tally).map Prod.fst).Nodup := by
    rw [organize_desktop_tally failSet s hroot]
    exact foldl_tally_keys_nodup failSet s.rootEntries _ (by simp)
  have hpos : ∀ p ∈ (organize_desktop failSet s).tally, 1 ≤ p.2 := by
    rw [organize_desktop_tally failSet s hroot]
    exact foldl_tally_pos failSet s.rootEntries _ (by simp)
  refine ⟨by rw [htot], organize_desktop_nothing_msg failSet s hroot, ?_⟩
  intro hpos0
  refine ⟨sortNames (((organize_desktop failSet s).tally).map Prod.fst),
    sortNames_sorted _, ((sortNames_perm _).nodup_iff).mpr hnd, ?_, ?_, ?_⟩
  · intro c
    rw [(sortNames_perm _).mem_iff, tallyCount_pos_iff _ hpos c, htc c]
  · obtain ⟨pre, hpre⟩ := organize_desktop_msgs_split failSet s hroot
    refine ⟨pre, ?_⟩
    rw [hpre]
    unfold summaryMsgs
    rw [if_neg (by omega)]
    rw [List.append_assoc]
    congr 1
    congr 1
    exact List.map_congr_left (fun c _ => by rw [htc c])
  · have h1 : (sortNames (((organize_desktop failSet s).tally).map Prod.fst)).map
        (fun c => s.rootEntries.countP
          (fun e => decide (eligibleMove failSet e) && (catOf e == c)))
        = (sortNames (((organize_desktop failSet s).tally).map Prod.fst)).map
            (tallyCount (organize_desktop failSet s).tally) :=
      List.map_congr_left (fun c _ => (htc c).symm)
    rw [h1]
    have h2 := ((sortNames_perm (((organize_desktop failSet s).tally).map Prod.fst)).map
      (tallyCount (organize_desktop failSet s).tally)).sum_eq
    rw [h2, map_tallyCount_keys _ hnd]
    rfl

/-- Witness for C6 at a concrete run with two categories: a photo and a
text file produce a sorted two-line summary with total 2. -/
theorem summary_report_witness :
    (⟨true, [⟨"b.txt", true⟩, ⟨"a.jpg", true⟩], []⟩ : DirState).rootExists = true
    ∧ (totalTally (organize_desktop []
        ⟨true, [⟨"b.txt", true⟩, ⟨"a.jpg", true⟩], []⟩).tally = 0 ↔
       ([⟨"b.txt", true⟩, ⟨"a.jpg", true⟩] : List Entry).countP
         (fun e => decide (eligibleMove [] e)) = 0) :=
  ⟨rfl, (summary_report [] ⟨true, [⟨"b.txt", true⟩, ⟨"a.jpg", true⟩], []⟩ rfl).1⟩
